import Mathlib

/-
Verification of the ATSC trellis (viterbi) decoder stage
(gr-dtv/lib/atsc/atsc_viterbi_decoder_impl.cc).

The block demultiplexes a stream of 832-sample segments across twelve
trellis decoders, realigns the decoded dibits with per-decoder
delay-compensation fifos, packs the dibits into 207-byte output segments
and carries the per-segment frame-position metadata (plinfo) through the
pipeline, advanced by the 12-segment latency.

Pieces of the program that live outside the translated source file
(the interleave tables of atsc_viterbi_mux, the interleaver_fifo class,
the plinfo arithmetic of atsc_types.h, and the viterbi decoder class)
are modelled from the specification; each such definition is marked
"Modelled from the spec" in its doc comment.
-/

namespace Atsc

/-- Number of interleaved trellis encoders (NCODERS). -/
def NCODERS : Nat := 12

/-- Samples per data segment (atsc_consts). -/
def ATSC_DATA_SEGMENT_LENGTH : Nat := 832

/-- Bytes per Reed-Solomon-encoded output segment (atsc_consts). -/
def ATSC_MPEG_RS_ENCODED_LENGTH : Nat := 207

/-- Symbols assigned to one encoder per 12-segment batch:
(832 - 4 sync) * 12 segments / 12 encoders = 828. -/
def enco_which_max : Nat := 828

/-- Size in bytes of the temporary packed output buffer covering one
batch of 12 segments. -/
def OUTPUT_SIZE : Nat := ATSC_MPEG_RS_ENCODED_LENGTH * NCODERS

/-- Modelled from the spec: the delay-compensation queue
(interleaver_fifo, not in the translated sources).  A fixed-size
circular buffer holding dibits, with a single cursor: stuff writes the
new dibit into the slot holding the oldest one and returns that oldest
dibit, advancing the cursor with wraparound. -/
structure interleaver_fifo where
  buf : List Nat
  pos : Nat
  deriving DecidableEq

/-- Modelled from the spec: a freshly constructed queue of the given
capacity is zero-filled with the cursor at slot 0. -/
def interleaver_fifo.make (size : Nat) : interleaver_fifo :=
  ⟨List.replicate size 0, 0⟩

/-- Modelled from the spec: reset zero-fills the buffer and rewinds the
cursor, so the queue again yields the initial fill value (0) until the
new dibits come around. -/
def interleaver_fifo.reset (f : interleaver_fifo) : interleaver_fifo :=
  ⟨List.replicate f.buf.length 0, 0⟩

/-- Modelled from the spec: stuff pushes the new dibit into the tail of
the circular buffer and pops and returns the oldest buffered dibit,
reusing the slot, with the cursor wrapping around at the capacity. -/
def interleaver_fifo.stuff (f : interleaver_fifo) (x : Nat) :
    Nat × interleaver_fifo :=
  let r := f.buf.getD f.pos 0
  let b := f.buf.set f.pos x
  let p := if f.pos + 1 ≥ b.length then 0 else f.pos + 1
  (r, ⟨b, p⟩)

/-- Feed a list of dibits through a fifo, collecting the returned
(delayed) dibits and the final fifo state. -/
def stuff_run (f : interleaver_fifo) : List Nat → List Nat × interleaver_fifo
  | [] => ([], f)
  | d :: ds =>
    let r := f.stuff d
    let rest := stuff_run r.2 ds
    (r.1 :: rest.1, rest.2)

/-- The logical queue contents of a fifo, oldest first: the slots from
the cursor to the end, then the slots before the cursor. -/
def interleaver_fifo.queue (f : interleaver_fifo) : List Nat :=
  f.buf.drop f.pos ++ f.buf.take f.pos

/-- Modelled from the spec: the black-box sequence decoder
(atsc_single_viterbi, not in the translated sources).  It has a fixed
decode delay D: the Nth decode call returns the decision for the
(N - D)th input of that decoder's stream.  The opaque trellis state is
modelled as the buffer of pending decisions, of constant length D. -/
structure single_viterbi where
  st : List Nat
  deriving DecidableEq

/-- Modelled from the spec: a fresh decoder with decode delay d, its
pending decisions initialised to 0. -/
def single_viterbi.make (d : Nat) : single_viterbi :=
  ⟨List.replicate d 0⟩

/-- Decode delay D of a decoder: the depth of its pending-decision
buffer, fixed for the life of the decoder. -/
def single_viterbi.delay (v : single_viterbi) : Nat := v.st.length

/-- Modelled from the spec: the hard dibit decision for one channel
sample (samples are modelled as already-quantized integers). -/
def hard_decision (x : Int) : Nat := x.toNat % 4

/-- Modelled from the spec: decode consumes one sample and returns the
decision for the sample D steps in the past, keeping the new decision
pending. -/
def single_viterbi.decode (v : single_viterbi) (x : Int) :
    Nat × single_viterbi :=
  (v.st.headD 0, ⟨v.st.tail ++ [hard_decision x]⟩)

/-- Run a decoder over a list of samples, collecting the emitted dibits
and the final decoder state. -/
def decode_run (v : single_viterbi) : List Int → List Nat × single_viterbi
  | [] => ([], v)
  | x :: xs =>
    let r := v.decode x
    let rest := decode_run r.2 xs
    (r.1 :: rest.1, rest.2)

/-- Modelled from the spec: the interleave table enco_which_syms of
atsc_viterbi_mux (not in the translated sources).  The transmitter
cycles the twelve encoders round-robin over all 832 symbol positions of
a segment (sync included), so the cycle advances by 832 mod 12 = 4
encoders per segment; the 4 sync symbols are excluded from decoding.
Encoder e therefore takes, within segment s, the 69 data positions
j with j = (e + 8 * s) mod 12 (mod 12), and its k-th symbol overall lives
in segment s = k / 69.  The table entry is the absolute sample offset of
that symbol inside the 12-segment batch. -/
def enco_which_syms (e k : Nat) : Nat :=
  832 * (k / 69) + 4 + ((e + 8 * (k / 69)) % 12 + 12 * (k % 69))

/-- Modelled from the spec: the interleave table enco_which_dibits of
atsc_viterbi_mux (not in the translated sources).  The dibit decoded
from the k-th symbol of encoder e occupies bit pair number
(data position within its segment) of that segment's 1656-bit packed
output, i.e. bit offset 1656 * s + 2 * j. -/
def enco_which_dibits (e k : Nat) : Nat :=
  1656 * (k / 69) + 2 * ((e + 8 * (k / 69)) % 12 + 12 * (k % 69))

/-- Byte index of an output bit offset: dbwhere >> 3. -/
def db_index (w : Nat) : Nat := w >>> 3

/-- In-byte shift of an output bit offset: dbwhere & 0x7. -/
def db_shift (w : Nat) : Nat := w &&& 7

/-- The read-modify-write of one dibit into one output byte:
(old & ~(0x03 << shift)) | (dibit << shift), with the complement taken
on a 32-bit int and the result stored back into an unsigned char. -/
def pack_byte (old dibit shift : Nat) : Nat :=
  ((old &&& (4294967295 ^^^ (3 <<< shift))) ||| (dibit <<< shift)) % 256

/-- The symbol gather of work: symbol k of encoder e, for the batch
starting at item offset i, reads
in[(i + table / 832) * ATSC_DATA_SEGMENT_LENGTH + table % 832]. -/
def work_symbol (in_ : Nat → Int) (i e k : Nat) : Int :=
  in_ ((i + enco_which_syms e k / 832) * ATSC_DATA_SEGMENT_LENGTH +
    enco_which_syms e k % 832)

/-- Sample n of the 12-segment batch starting at item offset i, the
batch input being the concatenation of the 12 segments' samples.  This
follows the specification's wording for the demultiplexer contract. -/
def batch_input (in_ : Nat → Int) (i n : Nat) : Int :=
  in_ (i * ATSC_DATA_SEGMENT_LENGTH + n)

/-- Modelled from the spec: the plinfo frame-position arithmetic of
atsc_types.h (not in the translated sources).  A tag is a pair
(segment index, field index) with 312 data segments per field and two
fields per frame; advancing by 12 segments adds 12 to the combined
position modulo a whole frame. -/
def plinfo_delay12 (p : Nat × Nat) : Nat × Nat :=
  let tot := p.2 * 312 + p.1 + 12
  let m := tot % 624
  (m % 312, m / 312)

/-- The per-encoder symbol buffer built by work for one batch. -/
def enc_symbols (in_ : Nat → Int) (i e : Nat) : List Int :=
  (List.range enco_which_max).map (fun k => work_symbol in_ i e k)

/-- Packing loop of work for one encoder: store each queue-delayed dibit
into its bit pair of the batch output buffer. -/
def pack_encoder (oc : List Nat) (e : Nat) (delayed : List Nat) : List Nat :=
  (List.range enco_which_max).foldl
    (fun acc k =>
      let w := enco_which_dibits e k
      acc.set (db_index w)
        (pack_byte (acc.getD (db_index w) 0) (delayed.getD k 0) (db_shift w)))
    oc

/-- The twelve decoder-plus-queue pairs of the block.  viterbi and fifo
are parallel lists of length NCODERS. -/
structure decoder_core where
  viterbi : List single_viterbi
  fifo : List interleaver_fifo
  deriving DecidableEq

/-- Fifo capacity chosen by the constructor:
ATSC_DATA_SEGMENT_LENGTH - 4 - viterbi[0].delay() (the -4 is for the 4
sync symbols). -/
def fifo_size (d : Nat) : Nat := ATSC_DATA_SEGMENT_LENGTH - 4 - d

/-- The constructor: twelve decoders of (common) delay d and twelve
fifos of capacity fifo_size d. -/
def core_make (d : Nat) : decoder_core :=
  ⟨List.replicate NCODERS (single_viterbi.make d),
    List.replicate NCODERS (interleaver_fifo.make (fifo_size d))⟩

/-- The reset operation of the block: it resets the twelve fifos (and
nothing else). -/
def core_reset (c : decoder_core) : decoder_core :=
  { c with fifo := c.fifo.map interleaver_fifo.reset }

/-- The encoder/segment indices 0..11 iterated by the inner loops. -/
def seg_js : List Nat := [0, 1, 2, 3, 4, 5, 6, 7, 8, 9, 10, 11]

/-- Decoding phase of one batch: run each of the twelve decoders over
its gathered symbol buffer. -/
def batch_decode (vs : List single_viterbi) (in_ : Nat → Int) (i : Nat) :
    List (List Nat) × List single_viterbi :=
  let rs := seg_js.map
    (fun e => decode_run (vs.getD e (single_viterbi.make 0)) (enc_symbols in_ i e))
  (rs.map Prod.fst, rs.map Prod.snd)

/-- Packing phase of one batch: push each decoder's dibits through its
fifo and store the delayed dibits into the batch output buffer. -/
def batch_pack (fs : List interleaver_fifo) (dib : List (List Nat)) :
    List Nat × List interleaver_fifo :=
  seg_js.foldl
    (fun acc e =>
      let r := stuff_run (acc.2.getD e (interleaver_fifo.make 0)) (dib.getD e [])
      (pack_encoder acc.1 e r.1, acc.2.set e r.2))
    (List.replicate OUTPUT_SIZE 0, fs)

/-- One batch of work before the per-segment copy loop: gather, decode,
delay and pack, yielding the packed batch buffer out_copy and the
updated decoder and fifo states. -/
def batch_out_copy (c : decoder_core) (in_ : Nat → Int) (i : Nat) :
    List Nat × decoder_core :=
  let d := batch_decode c.viterbi in_ i
  let p := batch_pack c.fifo d.1
  (p.1, ⟨d.2, p.2⟩)

/-- Byte offset at which work copies the output segment of batch offset
i, inner index j: (i * NCODERS + j) * ATSC_MPEG_RS_ENCODED_LENGTH. -/
def work_out_byte_index (i j : Nat) : Nat :=
  (i * NCODERS + j) * ATSC_MPEG_RS_ENCODED_LENGTH

/-- Stream position (relative to nitems_written) at which work attaches
the output tag of batch offset i, inner index j. -/
def work_tag_pos (i j : Nat) : Nat := i + j

/-- Observable result of one work call: the byte-range copies performed
on the output buffer (start offset and bytes), the tags attached (stream
position and advanced plinfo), the pending error, and the final state of
the decoder-plus-queue pairs. -/
structure work_result where
  out : List (Nat × List Nat)
  tags_out : List (Nat × (Nat × Nat))
  err : Option String
  core : decoder_core
  deriving DecidableEq

/-- The per-segment copy loop of one batch: for each j, look up the
plinfo tag at input position i + j (throwing if absent), copy 207 bytes
of out_copy to the output, and attach the tag advanced by 12 segments.
A raised error aborts the remaining iterations but keeps the effects
already performed. -/
def seg_go (oc : List Nat) (tagf : Nat → Option (Nat × Nat)) (i : Nat) :
    List Nat → work_result → work_result
  | [], r => r
  | j :: rest, r =>
    if r.err.isSome then r
    else
      match tagf (i + j) with
      | none => { r with err := some "No plinfo on tag" }
      | some t =>
        seg_go oc tagf i rest
          { r with
            out := r.out ++ [(work_out_byte_index i j,
              (oc.drop (j * OUTPUT_SIZE / NCODERS)).take ATSC_MPEG_RS_ENCODED_LENGTH)],
            tags_out := r.tags_out ++ [(work_tag_pos i j, plinfo_delay12 t)] }

/-- The outer batch loop of work over batch offsets i = 0, 12, 24, ....
State mutations of a batch precede its copy loop, so they persist even
when the copy loop throws. -/
def batch_go (in_ : Nat → Int) (tagf : Nat → Option (Nat × Nat)) :
    List Nat → work_result → work_result
  | [], r => r
  | i :: rest, r =>
    if r.err.isSome then r
    else
      let p := batch_out_copy r.core in_ i
      batch_go in_ tagf rest (seg_go p.1 tagf i seg_js { r with core := p.2 })

/-- The batch offsets processed by a work call of n items. -/
def work_batch_starts (n : Nat) : List Nat :=
  (List.range (n / NCODERS)).map (fun b => b * NCODERS)

/-- The work function: assert that the item count is a multiple of
NCODERS, then process the batches.  The assertion failure is modelled as
an immediate error with no effects. -/
def work (c : decoder_core) (n : Nat) (in_ : Nat → Int)
    (tagf : Nat → Option (Nat × Nat)) : work_result :=
  if n % NCODERS = 0 then
    batch_go in_ tagf (work_batch_starts n) ⟨[], [], none, c⟩
  else
    { out := [], tags_out := [],
      err := some "assertion failed: noutput_items % NCODERS == 0", core := c }

/-- A core state obtained from a fresh core (decoder delay 2) by letting
decoder 0 absorb two samples of value 3, as happens during processing. -/
def c2_state : decoder_core :=
  { core_make 2 with
    viterbi := (core_make 2).viterbi.set 0
      (((((core_make 2).viterbi.getD 0 (single_viterbi.make 0)).decode 3).2.decode 3).2) }

/-- Example input-tag function with a plinfo tag at position 0 only;
position 1 of the first batch has no tag. -/
def c3_tags : Nat → Option (Nat × Nat) :=
  fun p => if p = 0 then some (300, 0) else none

theorem stuff_fst (f : interleaver_fifo) (x : Nat) (h : f.pos < f.buf.length) :
    (f.stuff x).1 = f.queue.headD 0 := by
  have hd := @List.drop_eq_getElem_cons _ f.pos f.buf h
  simp only [interleaver_fifo.stuff, interleaver_fifo.queue,
    List.headD_eq_head?_getD, List.head?_append, hd, List.head?_cons,
    Option.or_some, List.getD_eq_getElem?_getD, List.getElem?_eq_getElem h]

theorem stuff_queue (f : interleaver_fifo) (x : Nat) (h : f.pos < f.buf.length) :
    (f.stuff x).2.queue = f.queue.tail ++ [x] ∧
    (f.stuff x).2.buf.length = f.buf.length ∧
    (f.stuff x).2.pos < f.buf.length := by
  have hlen : (f.buf.set f.pos x).length = f.buf.length := List.length_set ..
  have hdropne : f.buf.drop f.pos ≠ [] := by
    rw [List.drop_eq_getElem_cons h]; exact List.cons_ne_nil _ _
  have hset : f.buf.set f.pos x
      = f.buf.take f.pos ++ x :: f.buf.drop (f.pos + 1) :=
    List.set_eq_take_append_cons_drop.trans (by rw [if_pos h])
  have htail : (f.buf.drop f.pos ++ f.buf.take f.pos).tail
      = f.buf.drop (f.pos + 1) ++ f.buf.take f.pos := by
    rw [List.tail_append_of_ne_nil hdropne, List.tail_drop]
  have hbuf : (f.stuff x).2.buf = f.buf.set f.pos x := rfl
  by_cases hw : f.pos + 1 ≥ (f.buf.set f.pos x).length
  · -- wraparound: the cursor was on the last slot
    have hpos : f.pos + 1 = f.buf.length := by omega
    have hdropnil : f.buf.drop (f.pos + 1) = [] := by
      apply List.drop_eq_nil_of_le; omega
    have hp0 : (f.stuff x).2.pos = 0 := by
      simp only [interleaver_fifo.stuff]; rw [if_pos hw]
    refine ⟨?_, hlen, by rw [hp0]; omega⟩
    rw [interleaver_fifo.queue, hp0, hbuf, List.drop_zero, List.take_zero,
      List.append_nil, hset, hdropnil, interleaver_fifo.queue, htail, hdropnil,
      List.nil_append]
  · -- no wraparound: the cursor advances by one
    have hw' : f.pos + 1 < f.buf.length := by omega
    have hdrop : (f.buf.set f.pos x).drop (f.pos + 1) = f.buf.drop (f.pos + 1) := by
      rw [List.drop_set]; rw [if_pos (by omega)]
    have htakelen : (f.buf.take f.pos).length = f.pos := by
      simp [List.length_take]; omega
    have htake : (f.buf.set f.pos x).take (f.pos + 1) = f.buf.take f.pos ++ [x] := by
      rw [hset]
      have h1 := @List.take_append _ (f.buf.take f.pos)
        (x :: f.buf.drop (f.pos + 1)) 1
      rw [htakelen] at h1
      rw [h1]; rfl
    have hp1 : (f.stuff x).2.pos = f.pos + 1 := by
      simp only [interleaver_fifo.stuff]; rw [if_neg hw]
    refine ⟨?_, hlen, by rw [hp1]; omega⟩
    rw [interleaver_fifo.queue, hp1, hbuf, hdrop, htake, interleaver_fifo.queue,
      htail, List.append_assoc]

theorem stuff_run_outputs : ∀ (ds : List Nat) (f : interleaver_fifo),
    f.pos < f.buf.length →
    (stuff_run f ds).1 = (f.queue ++ ds).take ds.length ∧
    (stuff_run f ds).2.buf.length = f.buf.length ∧
    (stuff_run f ds).2.pos < f.buf.length
  | [], f, h => by
    refine ⟨?_, rfl, h⟩
    simp [stuff_run]
  | d :: ds, f, h => by
    obtain ⟨hq, hlen, hpos⟩ := stuff_queue f d h
    have hpos' : (f.stuff d).2.pos < (f.stuff d).2.buf.length := by
      rw [hlen]; exact hpos
    obtain ⟨ih1, ih2, ih3⟩ := stuff_run_outputs ds (f.stuff d).2 hpos'
    have hqlen : f.queue.length = f.buf.length := by
      simp [interleaver_fifo.queue]; omega
    have hqne : f.queue ≠ [] := by
      intro hnil
      rw [hnil] at hqlen
      simp at hqlen
      omega
    obtain ⟨a, q, hcons⟩ := List.exists_cons_of_ne_nil hqne
    refine ⟨?_, by rw [← hlen]; exact ih2, by rw [← hlen]; exact ih3⟩
    simp only [stuff_run, ih1, hq, stuff_fst f d h, hcons, List.headD_cons,
      List.tail_cons, List.length_cons, List.cons_append, List.take_succ_cons,
      List.append_assoc, List.singleton_append, List.nil_append]

theorem queue_make (C : Nat) : (interleaver_fifo.make C).queue = List.replicate C 0 := by
  simp [interleaver_fifo.make, interleaver_fifo.queue]

/-- C5: a delay-compensation queue of capacity C, starting from its
reset (freshly made) state, delays its input stream by exactly C steps:
feeding dibits ds yields outputs whose first C entries are the initial
fill value 0 and whose entry i + C equals ds entry i (0-indexed, which
is the claim's o with index i+C = d with index i for 1-indexed streams),
the fifo being a circular buffer with wraparound slot reuse. -/
theorem c5_fifo_delay (C n : Nat) (ds : List Nat) (hC : 0 < C)
    (hlen : ds.length = n) (hn : C < n) :
    ((stuff_run (interleaver_fifo.make C) ds).1).length = n ∧
    (∀ i, i < C → ((stuff_run (interleaver_fifo.make C) ds).1).getD i 0 = 0) ∧
    (∀ i, i + C < n →
      ((stuff_run (interleaver_fifo.make C) ds).1).getD (i + C) 0 = ds.getD i 0) := by
  have hpos : (interleaver_fifo.make C).pos < (interleaver_fifo.make C).buf.length := by
    simp [interleaver_fifo.make]; omega
  obtain ⟨ho, -, -⟩ := stuff_run_outputs ds (interleaver_fifo.make C) hpos
  rw [queue_make] at ho
  have hL : (List.replicate C 0 ++ ds).length = C + n := by simp [hlen]
  refine ⟨?_, ?_, ?_⟩
  · rw [ho, List.length_take, hlen, hL]; omega
  · intro i hi
    rw [ho, hlen, List.getD_eq_getElem?_getD, List.getElem?_take_of_lt (by omega),
      List.getElem?_append_left (by simp; omega), List.getElem?_replicate_of_lt hi]
    rfl
  · intro i hi
    rw [ho, hlen, List.getD_eq_getElem?_getD, List.getElem?_take_of_lt (by omega),
      List.getElem?_append_right (by simp), List.getD_eq_getElem?_getD]
    simp

/-- Witness for C5 at capacity 2 and input [5, 6, 7]. -/
theorem c5_fifo_delay_witness :
    0 < 2 ∧ [5, 6, 7].length = 3 ∧ 2 < 3 ∧
    ((stuff_run (interleaver_fifo.make 2) [5, 6, 7]).1).getD 2 0 = [5, 6, 7].getD 0 0 := by
  refine ⟨by decide, by decide, by decide, ?_⟩
  exact (c5_fifo_delay 2 3 [5, 6, 7] (by decide) (by decide) (by decide)).2.2 0 (by decide)

/-- C7: the interleave map is bijective.  Distinct (encoder, slot) pairs
read distinct input sample offsets and write distinct output bit
offsets; every bit offset is even, lies inside the packed 12-segment
output, and every bit pair of that output is hit by exactly one
(encoder, slot) pair - no gaps, no overlaps. -/
theorem c7_interleave_bijective :
    (∀ e₁ k₁ e₂ k₂, e₁ < 12 → k₁ < 828 → e₂ < 12 → k₂ < 828 →
      enco_which_syms e₁ k₁ = enco_which_syms e₂ k₂ → e₁ = e₂ ∧ k₁ = k₂) ∧
    (∀ e₁ k₁ e₂ k₂, e₁ < 12 → k₁ < 828 → e₂ < 12 → k₂ < 828 →
      enco_which_dibits e₁ k₁ = enco_which_dibits e₂ k₂ → e₁ = e₂ ∧ k₁ = k₂) ∧
    (∀ e k, e < 12 → k < 828 →
      enco_which_syms e k < 12 * 832 ∧
      enco_which_dibits e k % 2 = 0 ∧ enco_which_dibits e k < OUTPUT_SIZE * 8) ∧
    (∀ m, m < 9936 → ∃ e k, e < 12 ∧ k < 828 ∧ enco_which_dibits e k = 2 * m) := by
  refine ⟨?_, ?_, ?_, ?_⟩
  · intro e₁ k₁ e₂ k₂ he₁ hk₁ he₂ hk₂ heq
    unfold enco_which_syms at heq
    omega
  · intro e₁ k₁ e₂ k₂ he₁ hk₁ he₂ hk₂ heq
    unfold enco_which_dibits at heq
    omega
  · intro e k he hk
    unfold enco_which_syms enco_which_dibits OUTPUT_SIZE
      ATSC_MPEG_RS_ENCODED_LENGTH NCODERS
    omega
  · intro m hm
    refine ⟨((m % 828) % 12 + 4 * (m / 828)) % 12, 69 * (m / 828) + (m % 828) / 12,
      by omega, by omega, ?_⟩
    unfold enco_which_dibits
    have h1 : (69 * (m / 828) + m % 828 / 12) / 69 = m / 828 := by omega
    have h2 : (69 * (m / 828) + m % 828 / 12) % 69 = m % 828 / 12 := by omega
    rw [h1, h2]
    have h3 : ((m % 828 % 12 + 4 * (m / 828)) % 12 + 8 * (m / 828)) % 12
        = m % 828 % 12 := by omega
    rw [h3]
    omega

/-- C8: the symbol gather of work is a pure lookup: for a batch starting
at item offset i, symbols[e][k] equals the batch input (the concatenated
12 segments starting at i) at the sample offset given by the interleave
map, and that offset always lies inside the 12-segment batch. -/
theorem c8_demux (in_ : Nat → Int) (i e k : Nat) (_he : e < 12) (hk : k < 828) :
    work_symbol in_ i e k = batch_input in_ i (enco_which_syms e k) ∧
    enco_which_syms e k < 12 * 832 := by
  constructor
  · unfold work_symbol batch_input
    apply congrArg
    unfold ATSC_DATA_SEGMENT_LENGTH
    omega
  · unfold enco_which_syms
    omega

/-- Witness for C8 at i = 1, e = 0, k = 0. -/
theorem c8_demux_witness :
    0 < 12 ∧ 0 < 828 ∧
    work_symbol (fun n => (n : Int)) 1 0 0
      = batch_input (fun n => (n : Int)) 1 (enco_which_syms 0 0) := by
  refine ⟨by decide, by decide, ?_⟩
  exact (c8_demux (fun n => (n : Int)) 1 0 0 (by decide) (by decide)).1

theorem pack_byte_lt (o d s : Nat) : pack_byte o d s < 256 := by
  unfold pack_byte
  exact Nat.mod_lt _ (by norm_num)

theorem pack_byte_testBit_outside (o d s t : Nat) (hd : d < 4) (ht8 : t < 8)
    (h1 : t ≠ s) (h2 : t ≠ s + 1) :
    (pack_byte o d s).testBit t = o.testBit t := by
  have h32 : (4294967295 : Nat) = 2 ^ 32 - 1 := by norm_num
  have h256 : (256 : Nat) = 2 ^ 8 := by norm_num
  rw [pack_byte, h32, h256]
  simp only [Nat.testBit_mod_two_pow, Nat.testBit_or, Nat.testBit_and,
    Nat.testBit_xor, Nat.testBit_shiftLeft, Nat.testBit_two_pow_sub_one]
  by_cases hts : s ≤ t
  · have hds : 2 ≤ t - s := by omega
    have hpow : (4 : Nat) ≤ 2 ^ (t - s) := by
      calc (4 : Nat) = 2 ^ 2 := by norm_num
      _ ≤ 2 ^ (t - s) := Nat.pow_le_pow_right (by omega) hds
    have h3 : Nat.testBit 3 (t - s) = false :=
      Nat.testBit_lt_two_pow (by omega)
    have hdb : Nat.testBit d (t - s) = false :=
      Nat.testBit_lt_two_pow (by omega)
    simp [ht8, hts, h3, hdb, Nat.lt_of_lt_of_le ht8 (by norm_num : (8 : Nat) ≤ 32)]
  · simp [ht8, hts, Nat.lt_of_lt_of_le ht8 (by norm_num : (8 : Nat) ≤ 32)]

theorem pack_byte_testBit_inside (o d s i : Nat) (hs : s ≤ 6) (hi : i < 2) :
    (pack_byte o d s).testBit (s + i) = d.testBit i := by
  have h32 : (4294967295 : Nat) = 2 ^ 32 - 1 := by norm_num
  have h256 : (256 : Nat) = 2 ^ 8 := by norm_num
  rw [pack_byte, h32, h256]
  simp only [Nat.testBit_mod_two_pow, Nat.testBit_or, Nat.testBit_and,
    Nat.testBit_xor, Nat.testBit_shiftLeft, Nat.testBit_two_pow_sub_one]
  have hsub : s + i - s = i := by omega
  have h3 : Nat.testBit 3 i = true := by
    interval_cases i <;> decide
  simp [hsub, h3, show s + i < 8 by omega, show s + i < 32 by omega,
    show s ≤ s + i by omega]

theorem pack_byte_window (o d s : Nat) (hd : d < 4) (hs : s ≤ 6) :
    pack_byte o d s / 2 ^ s % 4 = d := by
  have hshift : pack_byte o d s / 2 ^ s = pack_byte o d s >>> s :=
    (Nat.shiftRight_eq_div_pow _ _).symm
  have hmod : pack_byte o d s >>> s % 4 = (pack_byte o d s >>> s) &&& 3 := by
    rw [show (3 : Nat) = 2 ^ 2 - 1 by norm_num, Nat.and_pow_two_sub_one_eq_mod]
  rw [hshift, hmod]
  apply Nat.eq_of_testBit_eq
  intro i
  rw [Nat.testBit_and, Nat.testBit_shiftRight]
  by_cases hi : i < 2
  · rw [pack_byte_testBit_inside o d s i hs hi]
    have h3 : Nat.testBit 3 i = true := by interval_cases i <;> decide
    rw [h3, Bool.and_true]
  · have h3 : Nat.testBit 3 i = false :=
      Nat.testBit_lt_two_pow (by
        have : (4 : Nat) ≤ 2 ^ i := by
          calc (4 : Nat) = 2 ^ 2 := by norm_num
          _ ≤ 2 ^ i := Nat.pow_le_pow_right (by omega) (by omega)
        omega)
    have hdb : Nat.testBit d i = false :=
      Nat.testBit_lt_two_pow (by
        have : (4 : Nat) ≤ 2 ^ i := by
          calc (4 : Nat) = 2 ^ 2 := by norm_num
          _ ≤ 2 ^ i := Nat.pow_le_pow_right (by omega) (by omega)
        omega)
    rw [h3, hdb, Bool.and_false]

theorem db_index_eq (w : Nat) : db_index w = w / 8 := by
  rw [db_index, Nat.shiftRight_eq_div_pow]

theorem db_shift_eq (w : Nat) : db_shift w = w % 8 := by
  rw [db_shift, show 7 = 2 ^ 3 - 1 by rfl, Nat.and_pow_two_sub_one_eq_mod]

/-- C9: the dibit packer stores a queue-delayed dibit for (encoder e,
slot k) into the output byte at index bit offset / 8 with in-byte shift
bit offset mod 8, by a read-modify-write that clears exactly the two
target bits, leaves every other bit of the byte unchanged, and keeps the
byte in range. -/
theorem c9_packer (e k old dibit : Nat) (_he : e < 12) (_hk : k < 828)
    (_ho : old < 256) (hd : dibit < 4) :
    db_index (enco_which_dibits e k) = enco_which_dibits e k / 8 ∧
    db_shift (enco_which_dibits e k) = enco_which_dibits e k % 8 ∧
    pack_byte old dibit (db_shift (enco_which_dibits e k)) < 256 ∧
    pack_byte old dibit (db_shift (enco_which_dibits e k))
      / 2 ^ (enco_which_dibits e k % 8) % 4 = dibit ∧
    ∀ t, t < 8 → t ≠ enco_which_dibits e k % 8 →
      t ≠ enco_which_dibits e k % 8 + 1 →
      (pack_byte old dibit (db_shift (enco_which_dibits e k))).testBit t
        = old.testBit t := by
  have hs6 : enco_which_dibits e k % 8 ≤ 6 := by
    unfold enco_which_dibits; omega
  rw [db_shift_eq]
  exact ⟨db_index_eq _, rfl, pack_byte_lt _ _ _,
    pack_byte_window old dibit _ hd hs6,
    fun t ht8 h1 h2 => pack_byte_testBit_outside old dibit _ t hd ht8 h1 h2⟩

/-- Witness for C9 at e = 0, k = 1 (bit offset 26, shift 2), old byte
255, dibit 2. -/
theorem c9_packer_witness :
    0 < 12 ∧ 1 < 828 ∧ 255 < 256 ∧ 2 < 4 ∧
    pack_byte 255 2 (db_shift (enco_which_dibits 0 1))
      / 2 ^ (enco_which_dibits 0 1 % 8) % 4 = 2 := by
  refine ⟨by decide, by decide, by decide, by decide, ?_⟩
  exact (c9_packer 0 1 255 2 (by decide) (by decide) (by decide) (by decide)).2.2.2.1

theorem stuff_run_length : ∀ (ds : List Nat) (f : interleaver_fifo),
    (stuff_run f ds).2.buf.length = f.buf.length
  | [], _ => rfl
  | d :: ds, f => by
    show (stuff_run (f.stuff d).2 ds).2.buf.length = f.buf.length
    rw [stuff_run_length ds (f.stuff d).2]
    simp [interleaver_fifo.stuff]

/-- C4: each of the twelve fifos is constructed with capacity
ATSC_DATA_SEGMENT_LENGTH - 4 - D where D is the decode delay of its own
paired decoder (all twelve decoders share the same fixed delay), and the
capacity is never changed afterwards: stuff, a whole stuff run, and
reset all preserve it. -/
theorem c4_fifo_capacity (d i : Nat) (hi : i < NCODERS) :
    ((core_make d).fifo.getD i (interleaver_fifo.make 0)).buf.length
      = ATSC_DATA_SEGMENT_LENGTH - 4
        - ((core_make d).viterbi.getD i (single_viterbi.make 0)).delay ∧
    (∀ f : interleaver_fifo, ∀ x, ((f.stuff x).2).buf.length = f.buf.length) ∧
    (∀ f : interleaver_fifo, ∀ ds, ((stuff_run f ds).2).buf.length = f.buf.length) ∧
    (∀ f : interleaver_fifo, (f.reset).buf.length = f.buf.length) := by
  refine ⟨?_, ?_, ?_, ?_⟩
  · unfold core_make
    rw [List.getD_eq_getElem?_getD, List.getElem?_replicate_of_lt hi,
      List.getD_eq_getElem?_getD, List.getElem?_replicate_of_lt hi]
    simp [interleaver_fifo.make, fifo_size, single_viterbi.make,
      single_viterbi.delay]
  · intro f x
    simp [interleaver_fifo.stuff]
  · intro f ds
    exact stuff_run_length ds f
  · intro f
    simp [interleaver_fifo.reset]

/-- Witness for C4 at decoder delay 2, fifo 0: capacity 826. -/
theorem c4_fifo_capacity_witness :
    0 < NCODERS ∧
    ((core_make 2).fifo.getD 0 (interleaver_fifo.make 0)).buf.length = 826 := by
  refine ⟨by decide, ?_⟩
  have h := (c4_fifo_capacity 2 0 (by decide)).1
  rw [h]
  decide

/-- C1: the claim that the packed bytes of the segment decoded from
input stream position i + j are copied to output stream position i + j
fails on the code: the copy destination is byte offset
(i * NCODERS + j) * ATSC_MPEG_RS_ENCODED_LENGTH, which for the second
batch of one call (i = 12, j = 0) is the byte offset of output segment
144, not of segment 12, while the tag of the same segment is attached at
stream position 12. -/
theorem c1_out_index_bug :
    work_out_byte_index 12 0 = 144 * ATSC_MPEG_RS_ENCODED_LENGTH ∧
    work_tag_pos 12 0 = 12 ∧
    work_out_byte_index 12 0 ≠ work_tag_pos 12 0 * ATSC_MPEG_RS_ENCODED_LENGTH := by
  refine ⟨by decide, by decide, by decide⟩

/-- C2 counterexample: reset does not return the core to its initial
post-construction condition.  After decoder 0 of a fresh core (delay 2)
absorbs two samples of value 3, reset leaves its trellis state [3, 3]
instead of the initial [0, 0], and the next decode call after reset
yields 3 where a freshly constructed core yields 0. -/
theorem c2_reset_counterexample :
    core_reset c2_state ≠ core_make 2 ∧
    ((core_reset c2_state).viterbi.getD 0 (single_viterbi.make 0)).st
      ≠ ((core_make 2).viterbi.getD 0 (single_viterbi.make 0)).st ∧
    (((core_reset c2_state).viterbi.getD 0 (single_viterbi.make 0)).decode 0).1
      ≠ (((core_make 2).viterbi.getD 0 (single_viterbi.make 0)).decode 0).1 := by
  refine ⟨by decide, by decide, by decide⟩

/-- C2 amended: reset clears each of the twelve delay-compensation
queues back to the zero-filled initial state but leaves every decoder's
internal trellis state untouched. -/
theorem c2_reset_amended (c : decoder_core) :
    (core_reset c).viterbi = c.viterbi ∧
    (core_reset c).fifo = c.fifo.map interleaver_fifo.reset ∧
    ∀ f : interleaver_fifo, f.reset = ⟨List.replicate f.buf.length 0, 0⟩ := by
  exact ⟨rfl, rfl, fun _ => rfl⟩

/-- C10: a work call whose item count is not a multiple of NCODERS is
rejected by the assertion: it reports the failure and performs no
output, attaches no tags, and leaves the decoder and queue state
untouched - no partial batch is ever decoded. -/
theorem c10_batch_multiple (c : decoder_core) (n : Nat) (in_ : Nat → Int)
    (tagf : Nat → Option (Nat × Nat)) (h : n % NCODERS ≠ 0) :
    (work c n in_ tagf).err
      = some "assertion failed: noutput_items % NCODERS == 0" ∧
    (work c n in_ tagf).out = [] ∧
    (work c n in_ tagf).tags_out = [] ∧
    (work c n in_ tagf).core = c := by
  unfold work
  rw [if_neg h]
  exact ⟨rfl, rfl, rfl, rfl⟩

/-- Witness for C10 at n = 5. -/
theorem c10_batch_multiple_witness :
    5 % NCODERS ≠ 0 ∧
    (work (core_make 2) 5 (fun _ => 0) (fun _ => none)).err
      = some "assertion failed: noutput_items % NCODERS == 0" := by
  refine ⟨by decide, ?_⟩
  exact (c10_batch_multiple (core_make 2) 5 (fun _ => 0) (fun _ => none) (by decide)).1

theorem seg_go_stop (oc : List Nat) (tagf : Nat → Option (Nat × Nat))
    (i : Nat) (js : List Nat) (r : work_result) (h : r.err.isSome) :
    seg_go oc tagf i js r = r := by
  cases js with
  | nil => rfl
  | cons j rest => rw [seg_go, if_pos h]

theorem batch_go_stop (in_ : Nat → Int) (tagf : Nat → Option (Nat × Nat))
    (is : List Nat) (r : work_result) (h : r.err.isSome) :
    batch_go in_ tagf is r = r := by
  cases is with
  | nil => rfl
  | cons i rest => rw [batch_go, if_pos h]

theorem seg_go_err_of_missing (oc : List Nat) (tagf : Nat → Option (Nat × Nat))
    (i : Nat) : ∀ (js : List Nat) (r : work_result) (j : Nat), j ∈ js →
    tagf (i + j) = none → ((seg_go oc tagf i js r).err).isSome
  | [], _, _, hj, _ => absurd hj (List.not_mem_nil _)
  | a :: rest, r, j, hj, hmiss => by
    by_cases hr : r.err.isSome
    · rw [seg_go, if_pos hr]; exact hr
    · rw [seg_go, if_neg hr]
      cases htag : tagf (i + a) with
      | none => simp
      | some t =>
        rcases List.mem_cons.1 hj with rfl | hj'
        · rw [htag] at hmiss; exact absurd hmiss (by simp)
        · exact seg_go_err_of_missing oc tagf i rest _ j hj' hmiss

theorem seg_go_tags_sub (oc : List Nat) (tagf : Nat → Option (Nat × Nat))
    (i : Nat) : ∀ (js : List Nat) (r : work_result) (pv : Nat × (Nat × Nat)),
    pv ∈ (seg_go oc tagf i js r).tags_out →
    pv ∈ r.tags_out ∨ ∃ t, tagf pv.1 = some t ∧ pv.2 = plinfo_delay12 t
  | [], _, _, h => Or.inl h
  | a :: rest, r, pv, h => by
    by_cases hr : r.err.isSome
    · rw [seg_go, if_pos hr] at h; exact Or.inl h
    · rw [seg_go, if_neg hr] at h
      cases htag : tagf (i + a) with
      | none => rw [htag] at h; exact Or.inl h
      | some t =>
        rw [htag] at h
        rcases seg_go_tags_sub oc tagf i rest _ pv h with hmem | hex
        · simp only [List.mem_append, List.mem_singleton] at hmem
          rcases hmem with hmem | rfl
          · exact Or.inl hmem
          · exact Or.inr ⟨t, htag, rfl⟩
        · exact Or.inr hex

theorem batch_go_tags_sub (in_ : Nat → Int) (tagf : Nat → Option (Nat × Nat)) :
    ∀ (is : List Nat) (r : work_result) (pv : Nat × (Nat × Nat)),
    pv ∈ (batch_go in_ tagf is r).tags_out →
    pv ∈ r.tags_out ∨ ∃ t, tagf pv.1 = some t ∧ pv.2 = plinfo_delay12 t
  | [], _, _, h => Or.inl h
  | a :: rest, r, pv, h => by
    by_cases hr : r.err.isSome
    · rw [batch_go, if_pos hr] at h; exact Or.inl h
    · rw [batch_go, if_neg hr] at h
      rcases batch_go_tags_sub in_ tagf rest _ pv h with hmem | hex
      · rcases seg_go_tags_sub _ tagf a _ _ pv hmem with hmem' | hex'
        · exact Or.inl hmem'
        · exact Or.inr hex'
      · exact Or.inr hex

theorem batch_go_err_of_missing (in_ : Nat → Int)
    (tagf : Nat → Option (Nat × Nat)) :
    ∀ (is : List Nat) (r : work_result) (i j : Nat), i ∈ is → j ∈ seg_js →
    tagf (i + j) = none → ((batch_go in_ tagf is r).err).isSome
  | [], _, _, _, hi, _, _ => absurd hi (List.not_mem_nil _)
  | a :: rest, r, i, j, hi, hj, hmiss => by
    by_cases hr : r.err.isSome
    · rw [batch_go, if_pos hr]; exact hr
    · rw [batch_go, if_neg hr]
      rcases List.mem_cons.1 hi with rfl | hi'
      · have herr := seg_go_err_of_missing (batch_out_copy r.core in_ i).1 tagf i
          seg_js { r with core := (batch_out_copy r.core in_ i).2 } j hj hmiss
        rw [batch_go_stop in_ tagf rest _ herr]
        exact herr
      · set r2 := seg_go (batch_out_copy r.core in_ a).1 tagf a seg_js
          { r with core := (batch_out_copy r.core in_ a).2 } with hr2
        by_cases h2 : r2.err.isSome
        · rw [batch_go_stop in_ tagf rest _ h2]; exact h2
        · exact batch_go_err_of_missing in_ tagf rest r2 i j hi' hj hmiss

/-- C3 corrected, counterexample at the claim's "no partial output"
part: for a single-batch call whose input has a plinfo tag at position 0
but none at position 1, work raises the fatal error, yet the output
bytes and the output tag of segment position 0 have already been
emitted before the failure: the out and tags lists are not empty. -/
theorem c3_partial_output_counterexample :
    (work (core_make 2) 12 (fun _ => 0) c3_tags).err = some "No plinfo on tag" ∧
    (work (core_make 2) 12 (fun _ => 0) c3_tags).out ≠ [] ∧
    (work (core_make 2) 12 (fun _ => 0) c3_tags).tags_out
      = [(0, plinfo_delay12 (300, 0))] := by
  have hstarts : work_batch_starts 12 = [0] := by decide
  have h0 : c3_tags 0 = some (300, 0) := rfl
  have h1 : c3_tags 1 = none := rfl
  rw [work, if_pos (by decide), hstarts]
  rw [batch_go]
  simp only [Option.isSome_none, Bool.false_eq_true, if_false]
  rw [seg_js, seg_go]
  simp only [Option.isSome_none, Bool.false_eq_true, if_false, Nat.add_zero, h0]
  rw [seg_go]
  simp only [Option.isSome_none, Bool.false_eq_true, if_false,
    show (0 : Nat) + 1 = 1 by rfl, h1]
  rw [batch_go]
  refine ⟨rfl, by simp, by simp [work_tag_pos]⟩

/-- C3 amended: a missing plinfo tag at any segment position of the
batch raises the fatal error for that work invocation and no substitute
tag is fabricated (every attached tag comes from an input tag, advanced
by 12 segments); however the output bytes and tags of segment positions
processed earlier in the batch have already been emitted when the error
is raised. -/
theorem c3_missing_tag_amended (c : decoder_core) (n : Nat) (in_ : Nat → Int)
    (tagf : Nat → Option (Nat × Nat)) (i j : Nat) (hn : n % NCODERS = 0)
    (hi : i ∈ work_batch_starts n) (hj : j ∈ seg_js)
    (hmiss : tagf (i + j) = none) :
    ((work c n in_ tagf).err).isSome ∧
    ∀ p v, (p, v) ∈ (work c n in_ tagf).tags_out →
      ∃ t, tagf p = some t ∧ v = plinfo_delay12 t := by
  constructor
  · rw [work, if_pos hn]
    exact batch_go_err_of_missing in_ tagf (work_batch_starts n) _ i j hi hj hmiss
  · intro p v hmem
    rw [work, if_pos hn] at hmem
    rcases batch_go_tags_sub in_ tagf (work_batch_starts n) _ (p, v) hmem with
      hnil | hex
    · exact absurd hnil (List.not_mem_nil _)
    · exact hex

/-- Witness for the amended C3 at a single batch with no tags at all. -/
theorem c3_missing_tag_witness :
    12 % NCODERS = 0 ∧ 0 ∈ work_batch_starts 12 ∧ 0 ∈ seg_js ∧
    ((work (core_make 2) 12 (fun _ => 0) (fun _ => none)).err).isSome := by
  refine ⟨by decide, by decide, by decide, ?_⟩
  exact (c3_missing_tag_amended (core_make 2) 12 (fun _ => 0) (fun _ => none)
    0 0 (by decide) (by decide) (by decide) rfl).1

/-- C6: the metadata propagator advances the frame position by exactly
12 segments: for a tag with segment index s and field index f, the
advanced tag has segment index (s + 12) mod 312 and the field index
toggles exactly when s + 12 wraps past the end of the field; moreover
every tag work attaches is the input tag at the same stream position
advanced in this way (no other value is ever attached). -/
theorem c6_tag_delay (s f : Nat) (hs : s < 312) (hf : f < 2) :
    plinfo_delay12 (s, f)
      = ((s + 12) % 312, if s + 12 < 312 then f else 1 - f) ∧
    ∀ (c : decoder_core) (n : Nat) (in_ : Nat → Int)
      (tagf : Nat → Option (Nat × Nat)) (p : Nat) (v : Nat × Nat),
      (p, v) ∈ (work c n in_ tagf).tags_out →
      ∃ t, tagf p = some t ∧ v = plinfo_delay12 t := by
  constructor
  · unfold plinfo_delay12
    by_cases h : s + 12 < 312
    · rw [if_pos h]
      refine Prod.ext ?_ ?_ <;> simp <;> omega
    · rw [if_neg h]
      refine Prod.ext ?_ ?_ <;> simp <;> omega
  · intro c n in_ tagf p v hmem
    unfold work at hmem
    by_cases hn : n % NCODERS = 0
    · rw [if_pos hn] at hmem
      rcases batch_go_tags_sub in_ tagf (work_batch_starts n) _ (p, v) hmem with
        hnil | hex
      · exact absurd hnil (List.not_mem_nil _)
      · exact hex
    · rw [if_neg hn] at hmem
      exact absurd hmem (List.not_mem_nil _)

/-- Witness for C6 at s = 305, f = 0: the segment wraps to 5 and the
field toggles to 1. -/
theorem c6_tag_delay_witness :
    305 < 312 ∧ 0 < 2 ∧ plinfo_delay12 (305, 0) = (5, 1) := by
  refine ⟨by decide, by decide, ?_⟩
  have h := (c6_tag_delay 305 0 (by decide) (by decide)).1
  rw [h]
  decide

end Atsc
